import Mathlib

/-!
Shallow embedding of `TC.py`: a deterministic single-tape Turing-machine
simulation engine (`TuringMachine` with `load_tape`, `step`, `run`,
`get_tape_content`) and the Caesar-cipher helpers `caesar_encrypt` /
`caesar_decrypt`. States are strings, tape symbols are characters, and
transition-rule directions are the strings "R" / "L" exactly as in the
source. The Python dict of transitions is embedded as an association list
looked up with `List.lookup`; the mutable object becomes explicit state
passing, with `step` returning the updated machine together with the
boolean the Python method returns.
-/

/-- The machine object of `TC.py`: specification fields fixed at
construction plus the mutable tape / head / current state. The Python head
can only become negative transiently inside `step` (it is repaired to 0
before the method returns), so the head is a `Nat`; the left move from
index 0 is embedded as the front insertion the repair performs. -/
structure TuringMachine where
  states : List String
  input_alphabet : List Char
  tape_alphabet : List Char
  initial_state : String
  accept_states : List String
  transitions : List ((String × Char) × (String × Char × String))
  tape : List Char
  head_position : Nat
  current_state : String
deriving DecidableEq, Repr

namespace TuringMachine

/-- `load_tape`: tape becomes the input's characters plus one blank
sentinel, head 0, state reset to the initial state. -/
def load_tape (m : TuringMachine) (input_string : String) : TuringMachine :=
  { m with tape := input_string.data ++ ['_'],
           head_position := 0,
           current_state := m.initial_state }

/-- The tape after the `while head_position >= len(tape): tape.append('_')`
loop at the top of `step`: blanks are appended until the head is inside
the tape, i.e. exactly `head_position + 1 - length` of them. -/
def paddedTape (m : TuringMachine) : List Char :=
  m.tape ++ List.replicate (m.head_position + 1 - m.tape.length) '_'

/-- One step of the machine: accept check, right-padding, transition
lookup, write / state change / head move, with the head-underflow repair
(insert a blank at the front, head back to 0) when a left move would make
the head negative. Returns the updated machine and the boolean `step`
returns (`true` = performed a transition, `false` = halted). -/
def step (m : TuringMachine) : TuringMachine × Bool :=
  if m.current_state ∈ m.accept_states then
    (m, false)
  else
    let tape := m.paddedTape
    let current_symbol := tape.getD m.head_position '_'
    match List.lookup (m.current_state, current_symbol) m.transitions with
    | none => ({ m with tape := tape }, false)
    | some (new_state, write_symbol, direction) =>
      let tape := tape.set m.head_position write_symbol
      if direction = "R" then
        ({ m with tape := tape, current_state := new_state,
                  head_position := m.head_position + 1 }, true)
      else if direction = "L" then
        if m.head_position = 0 then
          ({ m with tape := '_' :: tape, current_state := new_state,
                    head_position := 0 }, true)
        else
          ({ m with tape := tape, current_state := new_state,
                    head_position := m.head_position - 1 }, true)
      else
        ({ m with tape := tape, current_state := new_state }, true)

/-- Python's `''.join(tape).rstrip('_')` on the tape, as a list: drop
every trailing blank, keep everything else (leading blanks included). -/
def rstripBlank (l : List Char) : List Char :=
  (l.reverse.dropWhile (fun c => c = '_')).reverse

/-- `get_tape_content`: the tape joined into a string with trailing
blanks stripped. -/
def get_tape_content (m : TuringMachine) : String :=
  String.mk (rstripBlank m.tape)

/-- The `while steps < max_steps and self.step()` loop of `run`, with the
remaining budget as fuel. Returns the final machine, the number of
performed transitions (Python's final `steps` counter) and the number of
times `step()` was invoked. -/
def runFrom (m : TuringMachine) : Nat → TuringMachine × Nat × Nat
  | 0 => (m, 0, 0)
  | fuel + 1 =>
    let r := step m
    if r.2 then
      let rest := runFrom r.1 fuel
      (rest.1, rest.2.1 + 1, rest.2.2 + 1)
    else
      (r.1, 0, 1)

/-- `run(max_steps)`: iterate `step` under the budget, then return the
tape content with trailing blanks stripped. -/
def run (m : TuringMachine) (max_steps : Nat) : String :=
  get_tape_content (runFrom m max_steps).1

end TuringMachine

/-- The 26-letter uppercase alphabet the cipher functions index into. -/
def alphabet : List Char :=
  ['A', 'B', 'C', 'D', 'E', 'F', 'G', 'H', 'I', 'J', 'K', 'L', 'M',
   'N', 'O', 'P', 'Q', 'R', 'S', 'T', 'U', 'V', 'W', 'X', 'Y', 'Z']

/-- The per-character body of the `caesar_encrypt` loop: spaces kept,
letters shifted by `shift` modulo 26, everything else passed through.
Python's `%` on a positive modulus is `Int.emod`. -/
def encryptChar (shift : Int) (char : Char) : Char :=
  if char = ' ' then ' '
  else if char ∈ alphabet then
    let pos := alphabet.indexOf char
    let new_pos := ((pos : Int) + shift) % 26
    alphabet.getD new_pos.toNat 'A'
  else char

/-- The per-character body of the `caesar_decrypt` loop: spaces kept,
letters shifted back by `shift` modulo 26, everything else passed
through. -/
def decryptChar (shift : Int) (char : Char) : Char :=
  if char = ' ' then ' '
  else if char ∈ alphabet then
    let pos := alphabet.indexOf char
    let new_pos := ((pos : Int) - shift) % 26
    alphabet.getD new_pos.toNat 'A'
  else char

/-- `caesar_encrypt`: map the per-character encryption over the message
and join the results. -/
def caesar_encrypt (message : String) (shift : Int) : String :=
  String.mk (message.data.map (encryptChar shift))

/-- `caesar_decrypt`: map the per-character decryption over the message
and join the results. -/
def caesar_decrypt (message : String) (shift : Int) : String :=
  String.mk (message.data.map (decryptChar shift))

/-! Concrete machines used as witnesses and counterexamples. -/

/-- A machine with a single rule `(q0, '_') → (q0, '_', R)` and no accept
states. -/
def blankRightMachine : TuringMachine :=
  ⟨["q0"], ['_'], ['_'], "q0", [], [(("q0", '_'), ("q0", '_', "R"))], [], 0, "q0"⟩

/-- The machine of spec Scenario C: single rule `(q0, 'A') → (q0, 'A', R)`,
empty accept set. -/
def copyRightMachine : TuringMachine :=
  ⟨["q0"], ['A'], ['A', '_'], "q0", [], [(("q0", 'A'), ("q0", 'A', "R"))], [], 0, "q0"⟩

/-- A machine currently in its (sole) accept state, with a stale head
position past the end of its tape. -/
def acceptStateMachine : TuringMachine :=
  ⟨["q0"], [], ['_'], "q0", ["q0"], [], ['A'], 5, "q0"⟩

/-- A machine about to move Left from head index 0 via the rule
`(q0, '_') → (q1, 'X', L)`. -/
def leftFromZeroMachine : TuringMachine :=
  ⟨["q0", "q1"], [], ['_', 'X'], "q0", [], [(("q0", '_'), ("q1", 'X', "L"))], [], 0, "q0"⟩

/-- Twin of `specTwinB` with the same specification fields but stale
mutable state from a previous run. -/
def specTwinA : TuringMachine :=
  ⟨["q0"], ['A'], ['A', '_'], "q0", [], [(("q0", 'A'), ("q0", 'A', "R"))], ['Z', 'Z'], 7, "qX"⟩

/-- Twin of `specTwinA` with the same specification fields and fresh
mutable state. -/
def specTwinB : TuringMachine :=
  ⟨["q0"], ['A'], ['A', '_'], "q0", [], [(("q0", 'A'), ("q0", 'A', "R"))], [], 0, "q0"⟩

/-- A machine whose tape has a leading blank and no trailing blank. -/
def abTapeMachine : TuringMachine :=
  ⟨["q0"], [], ['_', 'A'], "q0", [], [], ['_', 'A'], 0, "q0"⟩

/-! Helper lemmas. -/

/-- After the padding loop the head is strictly inside the tape. -/
lemma head_lt_paddedTape_length (m : TuringMachine) :
    m.head_position < m.paddedTape.length := by
  simp [TuringMachine.paddedTape]
  omega

/-- Dropping leading blanks ignores a block of blanks in front. -/
lemma dropWhile_blank_replicate_append (k : Nat) (l : List Char) :
    List.dropWhile (fun c => c = '_') (List.replicate k '_' ++ l) =
      List.dropWhile (fun c => c = '_') l := by
  induction k with
  | zero => rfl
  | succ n ih => simp [List.replicate_succ, List.dropWhile_cons, ih]

/-- A list whose last element is not blank is unchanged by `rstripBlank`. -/
lemma rstripBlank_no_trailing (l : List Char) (h : l.getLast? ≠ some '_') :
    TuringMachine.rstripBlank l = l := by
  unfold TuringMachine.rstripBlank
  rcases hl : l.reverse with _ | ⟨a, t⟩
  · have h0 : l = [] := by simpa using congrArg List.reverse hl
    subst h0
    rfl
  · have hla : l.getLast? = some a := by rw [← List.head?_reverse, hl]; rfl
    have ha : (a = '_') = False := by
      refine eq_false fun he => h ?_
      rw [hla, he]
    rw [List.dropWhile_cons]
    simp only [ha, decide_False, Bool.false_eq_true, if_false]
    rw [← hl, List.reverse_reverse]

/-- Looking a letter up in the alphabet and indexing back returns the
letter, and its index is below 26. -/
lemma alphabet_mem_facts : ∀ c ∈ alphabet,
    alphabet.getD (alphabet.indexOf c) 'A' = c ∧ alphabet.indexOf c < 26 := by
  decide

/-- Indexing the alphabet below 26 yields a letter of the alphabet, never
a space, whose index is the one used. -/
lemma alphabet_index_facts : ∀ j ∈ List.range 26,
    alphabet.indexOf (alphabet.getD j 'A') = j ∧
    alphabet.getD j 'A' ∈ alphabet ∧ alphabet.getD j 'A' ≠ ' ' := by
  decide

/-- Per-character roundtrip of the cipher: decrypting an encrypted
character with the same shift restores it. -/
lemma caesar_char_roundtrip (k : Int) (c : Char) :
    decryptChar k (encryptChar k c) = c := by
  by_cases hsp : c = ' '
  · subst hsp
    simp [encryptChar, decryptChar]
  · by_cases hal : c ∈ alphabet
    · obtain ⟨hget, hlt⟩ := alphabet_mem_facts c hal
      have henc : encryptChar k c =
          alphabet.getD (((alphabet.indexOf c : Int) + k) % 26).toNat 'A' := by
        simp only [encryptChar]
        rw [if_neg hsp, if_pos hal]
      set a := alphabet.indexOf c with ha
      set j : Int := ((a : Int) + k) % 26 with hj
      have hj0 : 0 ≤ j := Int.emod_nonneg _ (by norm_num)
      have hjlt : j < 26 := Int.emod_lt_of_pos _ (by norm_num)
      have hjn : j.toNat < 26 := by omega
      obtain ⟨hidx, hmem, hne⟩ := alphabet_index_facts j.toNat (List.mem_range.mpr hjn)
      rw [henc]
      have hdec : decryptChar k (alphabet.getD j.toNat 'A') =
          alphabet.getD (((j.toNat : Int) - k) % 26).toNat 'A' := by
        simp only [decryptChar]
        rw [if_neg hne, if_pos hmem, hidx]
      rw [hdec]
      have harith : (((j.toNat : Int) - k) % 26).toNat = a := by omega
      rw [harith]
      exact hget
    · have he : encryptChar k c = c := by
        simp only [encryptChar]
        rw [if_neg hsp, if_neg hal]
      rw [he]
      simp only [decryptChar]
      rw [if_neg hsp, if_neg hal]

/-! Claim theorems. -/

/-- C1: `step()` returns `false` iff the current state is an accept state
or the transition table has no entry for the current state and the symbol
under the head after right-padding with blanks. -/
theorem step_false_iff_accept_or_no_rule (m : TuringMachine) :
    (TuringMachine.step m).2 = false ↔
      m.current_state ∈ m.accept_states ∨
      List.lookup (m.current_state, m.paddedTape.getD m.head_position '_')
        m.transitions = none := by
  unfold TuringMachine.step
  by_cases hacc : m.current_state ∈ m.accept_states
  · simp [hacc]
  · rw [if_neg hacc]
    simp only []
    rcases hlk : List.lookup (m.current_state, m.paddedTape.getD m.head_position '_')
        m.transitions with _ | ⟨q', w, d⟩
    · simp [hlk, hacc]
    · simp only [hlk]
      split_ifs <;> simp [hacc]

/-- C2 counterexample: with the single rule `(q0, '_') → (q0, '_', R)` and
the empty input, one `step()` after `load_tape("")` leaves the head at
index 1 on a tape of length 1, so `head < length(tape)` fails right after
a step that moved Right from the last cell. -/
theorem head_escapes_tape_after_right_move :
    (TuringMachine.step (TuringMachine.load_tape blankRightMachine "")).1.head_position = 1 ∧
    (TuringMachine.step (TuringMachine.load_tape blankRightMachine "")).1.tape.length = 1 := by
  decide

/-- C2 (amended): after `load_tape` the head is at most the tape length,
and every `step()` call preserves `head ≤ length(tape)`; the head can
equal the length right after a Right move from the last cell, and the
overflow is repaired by padding at the start of the next step. -/
theorem head_within_extended_tape :
    (∀ (m : TuringMachine) (s : String),
      (TuringMachine.load_tape m s).head_position ≤
        (TuringMachine.load_tape m s).tape.length) ∧
    (∀ m : TuringMachine, m.head_position ≤ m.tape.length →
      (TuringMachine.step m).1.head_position ≤
        (TuringMachine.step m).1.tape.length) := by
  constructor
  · intro m s
    simp [TuringMachine.load_tape]
  · intro m hm
    unfold TuringMachine.step
    by_cases hacc : m.current_state ∈ m.accept_states
    · rw [if_pos hacc]
      exact hm
    · rw [if_neg hacc]
      have hlt : m.head_position < m.paddedTape.length := head_lt_paddedTape_length m
      rcases hlk : List.lookup (m.current_state, m.paddedTape.getD m.head_position '_')
          m.transitions with _ | ⟨q', w, d⟩
      · simp only [hlk]
        simpa using hlt.le
      · simp only [hlk]
        split_ifs with hR hL h0 <;> simp [List.length_set] <;> omega

/-- C2 amended witness at a concrete machine and input. -/
theorem head_within_extended_tape_concretely :
    (TuringMachine.load_tape blankRightMachine "").head_position ≤
      (TuringMachine.load_tape blankRightMachine "").tape.length ∧
    (TuringMachine.step (TuringMachine.load_tape blankRightMachine "")).1.head_position ≤
      (TuringMachine.step (TuringMachine.load_tape blankRightMachine "")).1.tape.length :=
  ⟨head_within_extended_tape.1 blankRightMachine "",
   head_within_extended_tape.2 (TuringMachine.load_tape blankRightMachine "") (by decide)⟩

/-- C3: two machines built from the same specification, loaded with the
same input and run with the same budget, produce the same final tape
content and the same number of performed transitions. -/
theorem identical_runs_agree (m1 m2 : TuringMachine) (s : String) (n : Nat)
    (h1 : m1.states = m2.states)
    (h2 : m1.input_alphabet = m2.input_alphabet)
    (h3 : m1.tape_alphabet = m2.tape_alphabet)
    (h4 : m1.initial_state = m2.initial_state)
    (h5 : m1.accept_states = m2.accept_states)
    (h6 : m1.transitions = m2.transitions) :
    TuringMachine.run (TuringMachine.load_tape m1 s) n =
      TuringMachine.run (TuringMachine.load_tape m2 s) n ∧
    (TuringMachine.runFrom (TuringMachine.load_tape m1 s) n).2.1 =
      (TuringMachine.runFrom (TuringMachine.load_tape m2 s) n).2.1 := by
  have h : TuringMachine.load_tape m1 s = TuringMachine.load_tape m2 s := by
    cases m1; cases m2
    simp_all [TuringMachine.load_tape]
  rw [h]
  exact ⟨rfl, rfl⟩

/-- C3 witness: two concrete machines with the same specification but
different stale mutable state. -/
theorem identical_runs_agree_concretely :
    TuringMachine.run (TuringMachine.load_tape specTwinA "AAA") 10 =
      TuringMachine.run (TuringMachine.load_tape specTwinB "AAA") 10 ∧
    (TuringMachine.runFrom (TuringMachine.load_tape specTwinA "AAA") 10).2.1 =
      (TuringMachine.runFrom (TuringMachine.load_tape specTwinB "AAA") 10).2.1 :=
  identical_runs_agree specTwinA specTwinB "AAA" 10 rfl rfl rfl rfl rfl rfl

/-- C4: the `run` loop with budget `n` invokes `step()` at most `n`
times; the loop itself is total by construction (fuel recursion). -/
theorem run_invokes_step_at_most (m : TuringMachine) (n : Nat) :
    (TuringMachine.runFrom m n).2.2 ≤ n := by
  induction n generalizing m with
  | zero => simp [TuringMachine.runFrom]
  | succ k ih =>
    simp only [TuringMachine.runFrom]
    split
    · simpa using ih ((TuringMachine.step m).1)
    · exact Nat.succ_le_succ (Nat.zero_le k)

/-- C5: a step applying a Left rule while the head is at index 0 inserts
exactly one blank at the front of the post-write tape, leaves the head at
0, and returns `true`; every former cell keeps its relative order. -/
theorem left_move_from_zero (m : TuringMachine) (q' : String) (w : Char)
    (hacc : m.current_state ∉ m.accept_states)
    (h0 : m.head_position = 0)
    (hlk : List.lookup (m.current_state, m.paddedTape.getD m.head_position '_')
        m.transitions = some (q', w, "L")) :
    (TuringMachine.step m).1.tape = '_' :: m.paddedTape.set m.head_position w ∧
    (TuringMachine.step m).1.head_position = 0 ∧
    (TuringMachine.step m).2 = true := by
  unfold TuringMachine.step
  rw [if_neg hacc]
  simp only [hlk, if_true]
  rw [if_pos h0]
  exact ⟨rfl, rfl, rfl⟩

/-- C5 witness at a concrete machine with a Left rule at head 0. -/
theorem left_move_from_zero_concretely :
    (TuringMachine.step leftFromZeroMachine).1.tape =
      '_' :: leftFromZeroMachine.paddedTape.set leftFromZeroMachine.head_position 'X' ∧
    (TuringMachine.step leftFromZeroMachine).1.head_position = 0 ∧
    (TuringMachine.step leftFromZeroMachine).2 = true :=
  left_move_from_zero leftFromZeroMachine "q1" 'X' (by decide) rfl (by decide)

/-- C6: if the current state is an accept state, `step()` returns `false`
and the machine is returned completely unchanged: no padding, no write,
no head move, no state change. -/
theorem accept_state_halts_unchanged (m : TuringMachine)
    (h : m.current_state ∈ m.accept_states) :
    TuringMachine.step m = (m, false) := by
  unfold TuringMachine.step
  rw [if_pos h]

/-- C6 witness: a machine in its accept state with a stale out-of-range
head is returned exactly as it was. -/
theorem accept_state_halts_concretely :
    TuringMachine.step acceptStateMachine = (acceptStateMachine, false) :=
  accept_state_halts_unchanged acceptStateMachine (by decide)

/-- C7: `run` returns exactly `get_tape_content` of the machine where
execution stopped (whatever the stopping cause), and `get_tape_content`
strips all trailing blanks while preserving everything else, leading
blanks included. -/
theorem run_output_strips_trailing_blanks :
    (∀ (m : TuringMachine) (n : Nat),
      TuringMachine.run m n =
        TuringMachine.get_tape_content (TuringMachine.runFrom m n).1) ∧
    (∀ (m : TuringMachine) (k : Nat),
      TuringMachine.get_tape_content { m with tape := m.tape ++ List.replicate k '_' } =
        TuringMachine.get_tape_content m) ∧
    (∀ m : TuringMachine, m.tape.getLast? ≠ some '_' →
      TuringMachine.get_tape_content m = String.mk m.tape) := by
  refine ⟨fun m n => rfl, fun m k => ?_, fun m h => ?_⟩
  · simp only [TuringMachine.get_tape_content, TuringMachine.rstripBlank]
    rw [List.reverse_append, List.reverse_replicate, dropWhile_blank_replicate_append]
  · simp only [TuringMachine.get_tape_content]
    rw [rstripBlank_no_trailing _ h]

/-- C7 witness: a concrete tape with a leading blank and no trailing
blank is returned whole. -/
theorem tape_content_preserves_leading_blanks_concretely :
    TuringMachine.get_tape_content abTapeMachine = String.mk abTapeMachine.tape :=
  run_output_strips_trailing_blanks.2.2 abTapeMachine (by decide)

/-- C8: `load_tape(s)` sets the tape to the characters of `s` followed by
exactly one blank, the head to 0 and the state to the initial state,
whatever the machine's previous mutable state was. -/
theorem load_tape_initializes (m : TuringMachine) (s : String) :
    (TuringMachine.load_tape m s).tape = s.data ++ ['_'] ∧
    (TuringMachine.load_tape m s).head_position = 0 ∧
    (TuringMachine.load_tape m s).current_state = m.initial_state :=
  ⟨rfl, rfl, rfl⟩

/-- C9: Scenario C. With only the rule `(q0, 'A') → (q0, 'A', R)` and
input `"AAA"`, the machine performs exactly 3 transitions, the 4th
`step()` call returns `false`, and the tape content is `"AAA"`. -/
theorem copy_right_scenario :
    (TuringMachine.runFrom (TuringMachine.load_tape copyRightMachine "AAA") 100).2.1 = 3 ∧
    (TuringMachine.runFrom (TuringMachine.load_tape copyRightMachine "AAA") 100).2.2 = 4 ∧
    (TuringMachine.step
      (TuringMachine.runFrom (TuringMachine.load_tape copyRightMachine "AAA") 3).1).2 = false ∧
    TuringMachine.get_tape_content
      (TuringMachine.runFrom (TuringMachine.load_tape copyRightMachine "AAA") 100).1 = "AAA" := by
  decide

/-- C10: decrypting an encrypted message with the same shift restores the
message, for every message and every integer shift. -/
theorem caesar_roundtrip (m : String) (k : Int) :
    caesar_decrypt (caesar_encrypt m k) k = m := by
  unfold caesar_encrypt caesar_decrypt
  rw [show (String.mk (m.data.map (encryptChar k))).data = m.data.map (encryptChar k) from rfl,
    List.map_map]
  rw [show m.data.map (decryptChar k ∘ encryptChar k) = m.data.map id from
    List.map_congr_left fun c _ => caesar_char_roundtrip k c]
  rw [List.map_id]
